import Mathlib

/-!
Verification of the link-resolution and incremental-change-detection engine of
a Moodle course scanner (`moodle_scan.py`).  The Python functions are shallowly
embedded as Lean functions; network requests, HTML parsing (BeautifulSoup),
HTTP-date parsing (`email.utils.parsedate_to_datetime`) and percent-decoding
(`urllib.parse.unquote`) are supplied by an explicit environment (`Net`), with
Python exceptions modelled as `Except Unit`.  All definitions are executable,
so concrete runs can be settled with `decide`.
-/

set_option maxRecDepth 8000

namespace MoodleScan

/-! ## Character-list string utilities

Python string primitives used by the scanner, modelled over `String.data`
so that every operation reduces in the kernel. -/

/-- Boolean test that the first character list is a leading segment of the second. -/
def leadsCL : List Char → List Char → Bool
  | [], _ => true
  | _ :: _, [] => false
  | a :: as, b :: bs => a == b && leadsCL as bs

/-- Boolean test that `n` occurs as a contiguous run inside the second list. -/
def subCL (n : List Char) : List Char → Bool
  | [] => n.isEmpty
  | c :: t => leadsCL n (c :: t) || subCL n t

/-- Python's `needle in hay` substring test on strings. -/
def containsSub (hay needle : String) : Bool := subCL needle.data hay.data

/-- Whitespace trim on a character list (both ends). -/
def trimCL (l : List Char) : List Char :=
  ((l.dropWhile Char.isWhitespace).reverse.dropWhile Char.isWhitespace).reverse

/-- Python's `str.strip()`, modelled as trimming whitespace on both ends. -/
def strTrim (s : String) : String := String.mk (trimCL s.data)

/-- Python's `str.lower()`, modelled with ASCII case folding. -/
def strLower (s : String) : String := String.mk (s.data.map Char.toLower)

/-- Split a character list at the first occurrence of the separator, returning
the parts before and after it, or `none` when the separator does not occur.
Models Python's `s.split(sep, 1)` for a separator known to occur in `s`. -/
def splitFirstCL (sep : List Char) : List Char → Option (List Char × List Char)
  | [] => if sep.isEmpty then some ([], []) else none
  | c :: t =>
    if leadsCL sep (c :: t) then some ([], (c :: t).drop sep.length)
    else
      match splitFirstCL sep t with
      | some (l, r) => some (c :: l, r)
      | none => none

/-- Python's `path.rsplit("/", 1)[-1]`: the part after the last slash, or the
whole string when no slash occurs. -/
def afterLastSlash (s : String) : String :=
  String.mk ((s.data.reverse.takeWhile (fun c => !(c == '/'))).reverse)

/-- Python `set.add`; sets are modelled as duplicate-free lists in insertion
order (the scanner only iterates them through `sorted`, so only membership
matters). -/
def insertSet (s : List String) (x : String) : List String :=
  if x ∈ s then s else s ++ [x]

/-- Python's `list(dict.fromkeys(urls))`: de-duplication keeping the first
occurrence of each element. -/
def dedupFirst (l : List String) : List String := l.foldl insertSet []

/-! ## Three-way comparisons

Python compares strings lexicographically by code point and sorts tuples
lexicographically; these comparators model that. -/

/-- Three-way comparison on naturals. -/
def cmpN (a b : Nat) : Ordering := if a < b then .lt else if b < a then .gt else .eq

/-- Three-way comparison on integers. -/
def cmpInt (a b : Int) : Ordering := if a < b then .lt else if b < a then .gt else .eq

/-- Three-way comparison on characters by code point. -/
def cmpChar (a b : Char) : Ordering := cmpN a.toNat b.toNat

/-- Lexicographic three-way comparison on character lists. -/
def cmpCL : List Char → List Char → Ordering
  | [], [] => .eq
  | [], _ :: _ => .lt
  | _ :: _, [] => .gt
  | a :: as, b :: bs => (cmpChar a b).then (cmpCL as bs)

/-- Python's string order (lexicographic by code point), as a three-way
comparison. -/
def cmpStr (a b : String) : Ordering := cmpCL a.data b.data

/-- Non-strict Boolean order derived from a three-way comparison. -/
def leOfOrd : Ordering → Bool
  | .gt => false
  | _ => true

/-- Boolean string order used to model Python's `sorted` on strings. -/
def strLeB (a b : String) : Bool := leOfOrd (cmpStr a b)

/-! ## Stable sorting

Python's `list.sort`/`sorted` is a stable sort; it is modelled by a stable
insertion sort, which reduces in the kernel. -/

/-- Insert `x` after every element `y` of `l` with `le y x` (stable insertion
of a later-arriving element into an already sorted list). -/
def insertLe (le : α → α → Bool) (x : α) : List α → List α
  | [] => [x]
  | y :: t => if le y x then y :: insertLe le x t else x :: y :: t

/-- Stable insertion sort: Python's `sorted(l, key=...)` and `l.sort(key=...)`
for the total preorder `le`. -/
def insortList (le : α → α → Bool) (l : List α) : List α :=
  l.foldl (fun acc x => insertLe le x acc) []

/-- Python's `sorted` on a set of strings. -/
def sortedStrings (l : List String) : List String := insortList strLeB l

/-! ## Data model -/

/-- Timezone tag carried by an aware datetime. -/
inductive Tz
  | utc
  | il
  | fixedOffset (seconds : Int)
deriving DecidableEq, Repr

/-- Model of a Python `datetime` as produced by
`email.utils.parsedate_to_datetime`: a wall-clock reading encoded in seconds
together with an optional fixed UTC offset (`none` models a naive datetime). -/
structure PyDatetime where
  wall : Int
  tzOffsetSeconds : Option Int
deriving DecidableEq, Repr

/-- An aware datetime: the absolute instant (in seconds) plus the timezone the
value is expressed in.  Python compares aware datetimes by instant. -/
structure AwareDatetime where
  instant : Int
  tz : Tz
deriving DecidableEq, Repr

/-- Python `dt.replace(tzinfo=timezone.utc)` on a datetime: keep the wall
clock, declare it UTC. -/
def PyDatetime.replaceUtc (d : PyDatetime) : PyDatetime := ⟨d.wall, some 0⟩

/-- Python `dt.astimezone(TZ_IL)`: keep the absolute instant, retag with the
Israel timezone.  The scanner only applies it to aware datetimes; the `getD 0`
default (naive read as UTC) is unreachable there. -/
def PyDatetime.astimezoneIl (d : PyDatetime) : AwareDatetime :=
  ⟨d.wall - d.tzOffsetSeconds.getD 0, Tz.il⟩

/-- An HTML anchor element: its optional `href` attribute and its visible text
(the value of `get_text(" ", strip=True)`). -/
structure Anchor where
  href : Option String
  text : String
deriving DecidableEq, Repr

/-- Model of a `requests.Response`: status code, final URL after redirects
(`r.url`), the `Last-Modified` header value, and the body text.  `requests`
headers are case-insensitive, so the two spellings `"Last-Modified"` and
`"last-modified"` read by the source denote this single entry; `none` means
the header is absent. -/
structure Response where
  status : Nat
  url : String
  lastModified : Option String
  text : String
deriving DecidableEq, Repr

/-- The effect environment of the scanner.  HTTP requests may raise
(`Except Unit`); `parseHtml` models BeautifulSoup's anchor extraction from an
HTML string; `parseDate` models `email.utils.parsedate_to_datetime` (which
raises on unparseable input); `unquote` models `urllib.parse.unquote`. -/
structure Net where
  head : String → Except Unit Response
  getStream : String → Except Unit Response
  get : String → Except Unit Response
  parseHtml : String → List Anchor
  parseDate : String → Except Unit PyDatetime
  unquote : String → String

/-- The `FoundFile` dataclass of the source (the spec's ChangeRecord). -/
structure FoundFile where
  course_name_raw : String
  course_name_display : String
  file_name : String
  last_modified_il : AwareDatetime
  link : String
deriving DecidableEq, Repr

/-! ## Embedded source functions -/

/-- Python's `re.fullmatch(r"\d{6,}", s)`: six or more digits (ASCII digits;
the course codes matched by the source are ASCII). -/
def allDigits6 (s : String) : Bool := 6 ≤ s.data.length && s.data.all Char.isDigit

/-- Source `_course_display_name`: on the stripped label, when the part before
the first `" - "` is a run of six or more digits the display name is the part
after it, stripped; otherwise the stripped label itself. -/
def course_display_name (raw : String) : String :=
  let s := strTrim raw
  match splitFirstCL (" - ".data) s.data with
  | some (left, right) =>
    if allDigits6 (strTrim (String.mk left)) then strTrim (String.mk right) else s
  | none => s

/-- CPython `urlsplit` scheme characters. -/
def schemeChar (c : Char) : Bool := c.isAlpha || c.isDigit || c == '+' || c == '-' || c == '.'

/-- Drop a leading `scheme:` from a URL, as CPython `urlsplit` does: the part
before the first colon must be non-empty, start with an ASCII letter and
consist of scheme characters. -/
def dropScheme (u : List Char) : List Char :=
  let pre := u.takeWhile (fun c => !(c == ':'))
  match pre with
  | [] => u
  | c :: _ =>
    if pre.length < u.length then
      if c.isAlpha && pre.all schemeChar then u.drop (pre.length + 1) else u
    else u

/-- Drop a leading `//netloc` from a scheme-less URL, as CPython `urlsplit`
does: the network location extends to the first `/`, `?` or `#`. -/
def dropNetloc : List Char → List Char
  | '/' :: '/' :: rest => rest.dropWhile (fun c => !(c == '/') && !(c == '?') && !(c == '#'))
  | u => u

/-- CPython `urlparse(url).path`: strip the scheme and the `//netloc`, then cut
at the first `#` (fragment) and the first `?` (query). -/
def urlparsePath (url : String) : String :=
  String.mk (((dropNetloc (dropScheme url.data)).takeWhile (fun c => !(c == '#'))).takeWhile
    (fun c => !(c == '?')))

/-- Source `_safe_filename_from_url`: the percent-decoded, stripped last path
component of the URL, falling back to the URL itself when that is empty. -/
def safe_filename_from_url (net : Net) (url : String) : String :=
  let name := afterLastSlash (urlparsePath url)
  let name' := strTrim (net.unquote name)
  if name' = "" then url else name'

/-- Source `_parse_http_last_modified`: read the (case-insensitive)
`Last-Modified` header; a missing or empty header, or a parse failure, yields
`none`; a parsed naive datetime is declared UTC; the result is converted to
Israel local time. -/
def parse_http_last_modified (net : Net) (lastModified : Option String) : Option AwareDatetime :=
  match lastModified with
  | none => none
  | some lm =>
    if lm = "" then none
    else
      match net.parseDate lm with
      | .error _ => none
      | .ok dt => some (if dt.tzOffsetSeconds = none then dt.replaceUtc else dt).astimezoneIl

/-- Source `_http_head_follow`: a HEAD request, retried as a streamed GET when
the status is 403/405 or is an error status without a `Last-Modified` header;
any exception yields `none`. -/
def http_head_follow (net : Net) (url : String) : Option Response :=
  match net.head url with
  | .error _ => none
  | .ok r =>
    if r.status = 403 || r.status = 405 || (decide (400 ≤ r.status) && r.lastModified == none) then
      match net.getStream url with
      | .error _ => none
      | .ok r2 => some r2
    else some r

/-- Source `_http_get_html`: a GET request; an exception or an error status
yields `none`. -/
def http_get_html (net : Net) (url : String) : Option String :=
  match net.get url with
  | .error _ => none
  | .ok r => if 400 ≤ r.status then none else some r.text

/-- Source `_extract_pluginfile_links_from_html`: anchors whose href contains
`pluginfile.php`, in document order, paired with their stripped visible text. -/
def extract_pluginfile_links_from_html (net : Net) (html : String) : List (String × String) :=
  (net.parseHtml html).filterMap fun a =>
    match a.href with
    | none => none
    | some h =>
      if !(h == "") && containsSub h "pluginfile.php" then some (h, strTrim a.text) else none

/-- Classification step of `_extract_activity_links_from_course_html` for one
anchor: a pluginfile href goes to the first set, otherwise an href matching one
of the three activity-view patterns goes to the second set, and all other
hrefs are dropped. -/
def anchorStep (acc : List String × List String) (a : Anchor) : List String × List String :=
  match a.href with
  | none => acc
  | some h =>
    if h = "" then acc
    else if containsSub h "moodle.tau.ac.il/pluginfile.php/" then (insertSet acc.1 h, acc.2)
    else if containsSub h "moodle.tau.ac.il/mod/resource/view.php" then (acc.1, insertSet acc.2 h)
    else if containsSub h "moodle.tau.ac.il/mod/folder/view.php" then (acc.1, insertSet acc.2 h)
    else if containsSub h "moodle.tau.ac.il/mod/assign/view.php" then (acc.1, insertSet acc.2 h)
    else acc

/-- Source `_extract_activity_links_from_course_html`: classify every anchor of
the page into the pluginfile set and the activity-page set. -/
def extract_activity_links_from_course_html (net : Net) (html : String) :
    List String × List String :=
  (net.parseHtml html).foldl anchorStep ([], [])

/-- Probe URL built by `_resolve_resource_view_to_file`: append `redirect=1`
(with `?` or `&` according to the presence of a query string) unless the text
`redirect=` already occurs in the URL. -/
def resource_probe_url (view_url : String) : String :=
  if containsSub view_url "redirect=" then view_url
  else view_url ++ (if containsSub view_url "?" then "&" else "?") ++ "redirect=1"

/-- Fallback branch of `_resolve_resource_view_to_file`: fetch the activity
page and scrape its pluginfile links, de-duplicated keeping first occurrences.
The second component instruments the number of HTML page fetches issued. -/
def resolve_fallback (net : Net) (view_url : String) : List String × Nat :=
  match http_get_html net view_url with
  | none => ([], 1)
  | some html =>
    if html = "" then ([], 1)
    else (dedupFirst ((extract_pluginfile_links_from_html net html).map Prod.fst), 1)

/-- Source `_resolve_resource_view_to_file`, instrumented with the number of
HTML page fetches: probe the redirect URL first and return its final location
when that is a pluginfile URL; otherwise scrape the page. -/
def resolve_resource_view_traced (net : Net) (view_url : String) : List String × Nat :=
  match http_head_follow net (resource_probe_url view_url) with
  | some r =>
    if !(r.url == "") && containsSub r.url "pluginfile.php" then ([r.url], 0)
    else resolve_fallback net view_url
  | none => resolve_fallback net view_url

/-- Source `_resolve_resource_view_to_file`. -/
def resolve_resource_view_to_file (net : Net) (view_url : String) : List String :=
  (resolve_resource_view_traced net view_url).1

/-- Source `_get_last_modified_for_file`.  The source's `if not r` uses
`requests.Response` truthiness, which is `status_code < 400`. -/
def get_last_modified_for_file (net : Net) (file_url : String) : Option AwareDatetime :=
  match http_head_follow net file_url with
  | none => none
  | some r => if 400 ≤ r.status then none else parse_http_last_modified net r.lastModified

/-- Source `_normalize_link_for_print`: report the original activity URL when
it matches an activity-view pattern, the resolved pluginfile URL otherwise. -/
def normalize_link_for_print (original_link pluginfile_link : String) : String :=
  if containsSub original_link "mod/resource/view.php"
      || containsSub original_link "mod/folder/view.php"
      || containsSub original_link "mod/assign/view.php"
  then original_link else pluginfile_link

/-! ## The scan (`scan_all`)

The scan is embedded with explicit state passing and with two pieces of
instrumentation that the source's observable behaviour does not depend on: a
log of the `_get_last_modified_for_file` invocations keyed by
`(course_url, file_url)`, and, on each emitted record, its dedup key and its
discovery provenance. -/

/-- Provenance of one emitted record: `none` for a pluginfile link found
directly on the course page; `some (act, none)` for the resource-view
fast/scrape path (no anchor label available); `some (act, some label)` for a
file scraped from a folder/assign activity page with its anchor label. -/
abbrev Origin := Option (String × Option String)

/-- One record of the instrumented scan: the emitted `FoundFile`, its dedup
key components `(courseUrl, resolvedUrl)`, and its provenance. -/
structure TracedFile where
  file : FoundFile
  courseUrl : String
  resolvedUrl : String
  origin : Origin
deriving DecidableEq, Repr

/-- Dedup key of a traced record. -/
def TracedFile.key (tf : TracedFile) : String × String := (tf.courseUrl, tf.resolvedUrl)

/-- State threaded through `scan_all`: emitted records, the `seen_files` dedup
set, and the instrumentation log of metadata lookups. -/
structure ScanState where
  found : List TracedFile
  seen : List (String × String)
  calls : List (String × String)
deriving DecidableEq, Repr

/-- Record emitted by `scan_all` for one accepted file: the file name is the
anchor label when one is available and non-blank, a URL-derived name
otherwise; the reported link is the resolved URL for direct links and the
normalised original activity URL for activity-derived files. -/
def mkRecord (net : Net) (raw disp course_url : String) (origin : Origin) (pf : String)
    (lm : AwareDatetime) : TracedFile :=
  let fname : String :=
    match origin with
    | some (_, some txt) =>
      if strTrim txt = "" then safe_filename_from_url net pf else strTrim txt
    | _ => safe_filename_from_url net pf
  let link : String :=
    match origin with
    | none => pf
    | some (act, _) => normalize_link_for_print act pf
  ⟨⟨raw, disp, fname, lm, link⟩, course_url, pf, origin⟩

/-- One `seen_files`-guarded metadata lookup followed by conditional record
emission: the block `scan_all` inlines three times (direct pluginfile links,
resource-view resolutions, folder/assign scrapes).  The `origin` argument
selects the per-path file-name and link rules exactly as the three inlined
copies do. -/
def processFile (net : Net) (ref : AwareDatetime) (raw disp course_url : String)
    (origin : Origin) (st : ScanState) (pf : String) : ScanState :=
  if (course_url, pf) ∈ st.seen then st
  else
    let seen' := st.seen ++ [(course_url, pf)]
    let calls' := st.calls ++ [(course_url, pf)]
    match get_last_modified_for_file net pf with
    | none => ⟨st.found, seen', calls'⟩
    | some lm =>
      if ref.instant < lm.instant then
        ⟨st.found ++ [mkRecord net raw disp course_url origin pf lm], seen', calls'⟩
      else ⟨st.found, seen', calls'⟩

/-- Body of `scan_all`'s `for act in sorted(activity_pages)` loop: resource
views go through the redirect-probe resolver; folder/assign views are fetched
and scraped with labels, skipping non-pluginfile hrefs. -/
def processActivity (net : Net) (ref : AwareDatetime) (raw disp course_url : String)
    (st : ScanState) (act : String) : ScanState :=
  if containsSub act "mod/resource/view.php" then
    (resolve_resource_view_to_file net act).foldl
      (processFile net ref raw disp course_url (some (act, none))) st
  else
    match http_get_html net act with
    | none => st
    | some act_html =>
      if act_html = "" then st
      else
        (extract_pluginfile_links_from_html net act_html).foldl
          (fun st' pt =>
            if containsSub pt.1 "pluginfile.php" then
              processFile net ref raw disp course_url (some (act, some pt.2)) st' pt.1
            else st')
          st

/-- Per-course body of `scan_all`: fetch the course page (failure or empty
page skips the course), extract links, then process direct pluginfile links
and activity links in sorted order. -/
def processCourse (net : Net) (ref : AwareDatetime) (st : ScanState)
    (course : String × String) : ScanState :=
  let disp := course_display_name course.1
  match http_get_html net course.2 with
  | none => st
  | some html =>
    if html = "" then st
    else
      let links := extract_activity_links_from_course_html net html
      let st1 := (sortedStrings links.1).foldl
        (processFile net ref course.1 disp course.2 none) st
      (sortedStrings links.2).foldl (processActivity net ref course.1 disp course.2) st1

/-- Source `scan_all` before its final sort, instrumented. -/
def scan_all_traced (net : Net) (courses : List (String × String)) (ref : AwareDatetime) :
    ScanState :=
  courses.foldl (processCourse net ref) ⟨[], [], []⟩

/-- Sort key of `scan_all`'s final
`found.sort(key=lambda x: (display, last_modified, file_name.lower()))`,
as the triple it compares. -/
def keyOf (x : FoundFile) : String × Int × String :=
  (x.course_name_display, x.last_modified_il.instant, strLower x.file_name)

/-- Lexicographic three-way comparison of sort keys. -/
def cmpKey (a b : String × Int × String) : Ordering :=
  (cmpStr a.1 b.1).then ((cmpInt a.2.1 b.2.1).then (cmpStr a.2.2 b.2.2))

/-- Boolean order on records induced by the sort key. -/
def keyLe (x y : FoundFile) : Bool := leOfOrd (cmpKey (keyOf x) (keyOf y))

/-- Final stable sort of `scan_all`. -/
def sortFound (l : List FoundFile) : List FoundFile := insortList keyLe l

/-- Source `scan_all`: the records of the instrumented scan, sorted by
(display name, modification time, lower-cased file name). -/
def scan_all (net : Net) (courses : List (String × String)) (ref : AwareDatetime) :
    List FoundFile :=
  sortFound ((scan_all_traced net courses ref).found.map TracedFile.file)

/-! ## Comparator lemmas -/

theorem cmpN_eq_iff {a b : Nat} : cmpN a b = .eq ↔ a = b := by
  unfold cmpN; split_ifs <;> simp <;> omega

theorem cmpN_lt_iff {a b : Nat} : cmpN a b = .lt ↔ a < b := by
  unfold cmpN; split_ifs <;> simp <;> omega

theorem cmpN_swap (a b : Nat) : cmpN b a = (cmpN a b).swap := by
  unfold cmpN; split_ifs <;> simp [Ordering.swap] <;> omega

theorem cmpInt_eq_iff {a b : Int} : cmpInt a b = .eq ↔ a = b := by
  unfold cmpInt; split_ifs <;> simp <;> omega

theorem cmpInt_lt_iff {a b : Int} : cmpInt a b = .lt ↔ a < b := by
  unfold cmpInt; split_ifs <;> simp <;> omega

theorem cmpInt_swap (a b : Int) : cmpInt b a = (cmpInt a b).swap := by
  unfold cmpInt; split_ifs <;> simp [Ordering.swap] <;> omega

theorem cmpInt_lt_trans {a b c : Int} (h1 : cmpInt a b = .lt) (h2 : cmpInt b c = .lt) :
    cmpInt a c = .lt := by
  rw [cmpInt_lt_iff] at *; omega

theorem charToNat_inj {a b : Char} (h : a.toNat = b.toNat) : a = b :=
  Char.ext (UInt32.ext h)

theorem cmpChar_eq_iff {a b : Char} : cmpChar a b = .eq ↔ a = b := by
  unfold cmpChar
  rw [cmpN_eq_iff]
  exact ⟨charToNat_inj, fun h => by rw [h]⟩

theorem cmpChar_lt_iff {a b : Char} : cmpChar a b = .lt ↔ a.toNat < b.toNat := by
  unfold cmpChar; exact cmpN_lt_iff

theorem cmpChar_swap (a b : Char) : cmpChar b a = (cmpChar a b).swap := by
  unfold cmpChar; exact cmpN_swap _ _

theorem then_swap (x y : Ordering) : (x.then y).swap = x.swap.then y.swap := by
  cases x <;> rfl

theorem then_eq_lt {x y : Ordering} : x.then y = .lt ↔ x = .lt ∨ (x = .eq ∧ y = .lt) := by
  cases x <;> simp [Ordering.then]

theorem then_eq_eq {x y : Ordering} : x.then y = .eq ↔ x = .eq ∧ y = .eq := by
  cases x <;> simp [Ordering.then]

theorem cmpCL_eq : ∀ {a b : List Char}, cmpCL a b = .eq → a = b
  | [], [], _ => rfl
  | [], _ :: _, h => by simp [cmpCL] at h
  | _ :: _, [], h => by simp [cmpCL] at h
  | a :: as, b :: bs, h => by
    rw [cmpCL, then_eq_eq] at h
    rw [cmpChar_eq_iff.mp h.1, cmpCL_eq h.2]

theorem cmpCL_swap : ∀ (a b : List Char), cmpCL b a = (cmpCL a b).swap
  | [], [] => rfl
  | [], _ :: _ => rfl
  | _ :: _, [] => rfl
  | a :: as, b :: bs => by
    rw [cmpCL, cmpCL, then_swap, cmpChar_swap a b, cmpCL_swap as bs]

theorem cmpCL_lt_trans : ∀ {a b c : List Char},
    cmpCL a b = .lt → cmpCL b c = .lt → cmpCL a c = .lt
  | [], [], _, h1, _ => by simp [cmpCL] at h1
  | [], _ :: _, [], _, h2 => by simp [cmpCL] at h2
  | [], _ :: _, _ :: _, _, _ => by simp [cmpCL]
  | _ :: _, [], _, h1, _ => by simp [cmpCL] at h1
  | _ :: _, _ :: _, [], _, h2 => by simp [cmpCL] at h2
  | a :: as, b :: bs, c :: cs, h1, h2 => by
    rw [cmpCL, then_eq_lt] at h1 h2 ⊢
    rcases h1 with h1 | ⟨h1e, h1'⟩
    · rcases h2 with h2 | ⟨h2e, _⟩
      · refine Or.inl ?_
        rw [cmpChar_lt_iff] at h1 h2 ⊢
        omega
      · have := cmpChar_eq_iff.mp h2e
        subst this
        exact Or.inl h1
    · have := cmpChar_eq_iff.mp h1e
      subst this
      rcases h2 with h2 | ⟨h2e, h2'⟩
      · exact Or.inl h2
      · exact Or.inr ⟨h2e, cmpCL_lt_trans h1' h2'⟩

theorem strData_inj {a b : String} (h : a.data = b.data) : a = b :=
  congrArg String.mk h

theorem cmpStr_eq {a b : String} (h : cmpStr a b = .eq) : a = b :=
  strData_inj (cmpCL_eq h)

theorem cmpStr_swap (a b : String) : cmpStr b a = (cmpStr a b).swap :=
  cmpCL_swap _ _

theorem cmpStr_lt_trans {a b c : String} (h1 : cmpStr a b = .lt) (h2 : cmpStr b c = .lt) :
    cmpStr a c = .lt :=
  cmpCL_lt_trans h1 h2

theorem cmpKey_eq {a b : String × Int × String} (h : cmpKey a b = .eq) : a = b := by
  obtain ⟨a1, a2, a3⟩ := a
  obtain ⟨b1, b2, b3⟩ := b
  unfold cmpKey at h
  dsimp only at h
  rw [then_eq_eq, then_eq_eq] at h
  obtain ⟨h1, h2, h3⟩ := h
  rw [cmpStr_eq h1, cmpInt_eq_iff.mp h2, cmpStr_eq h3]

theorem cmpKey_swap (a b : String × Int × String) : cmpKey b a = (cmpKey a b).swap := by
  obtain ⟨a1, a2, a3⟩ := a
  obtain ⟨b1, b2, b3⟩ := b
  unfold cmpKey
  dsimp only
  rw [then_swap, then_swap, cmpStr_swap a1 b1, cmpInt_swap a2 b2, cmpStr_swap a3 b3]

theorem cmpKey_lt_trans {a b c : String × Int × String}
    (h1 : cmpKey a b = .lt) (h2 : cmpKey b c = .lt) : cmpKey a c = .lt := by
  obtain ⟨a1, a2, a3⟩ := a
  obtain ⟨b1, b2, b3⟩ := b
  obtain ⟨c1, c2, c3⟩ := c
  unfold cmpKey at h1 h2 ⊢
  rw [then_eq_lt] at h1 h2 ⊢
  rcases h1 with h1 | ⟨h1e, h1'⟩
  · rcases h2 with h2 | ⟨h2e, _⟩
    · exact Or.inl (cmpStr_lt_trans h1 h2)
    · rw [← cmpStr_eq h2e]; exact Or.inl h1
  · rw [cmpStr_eq h1e] at *
    rcases h2 with h2 | ⟨h2e, h2'⟩
    · exact Or.inl h2
    · refine Or.inr ⟨h2e, ?_⟩
      rw [then_eq_lt] at h1' h2' ⊢
      rcases h1' with h1' | ⟨h1e', h1''⟩
      · rcases h2' with h2' | ⟨h2e', _⟩
        · exact Or.inl (cmpInt_lt_trans h1' h2')
        · rw [← cmpInt_eq_iff.mp h2e']; exact Or.inl h1'
      · rw [cmpInt_eq_iff.mp h1e'] at *
        rcases h2' with h2' | ⟨h2e', h2''⟩
        · exact Or.inl h2'
        · exact Or.inr ⟨h2e', cmpStr_lt_trans h1'' h2''⟩

theorem leOfOrd_true {o : Ordering} : leOfOrd o = true ↔ o = .lt ∨ o = .eq := by
  cases o <;> simp [leOfOrd]

theorem keyLe_total (x y : FoundFile) : (keyLe x y || keyLe y x) = true := by
  unfold keyLe
  rcases h : cmpKey (keyOf x) (keyOf y) with _ | _ | _ <;>
    simp [leOfOrd_true, cmpKey_swap (keyOf x) (keyOf y), h, Ordering.swap]

theorem keyLe_trans {x y z : FoundFile} (h1 : keyLe x y = true) (h2 : keyLe y z = true) :
    keyLe x z = true := by
  unfold keyLe at *
  rw [leOfOrd_true] at *
  rcases h1 with h1 | h1
  · rcases h2 with h2 | h2
    · exact Or.inl (cmpKey_lt_trans h1 h2)
    · rw [← cmpKey_eq h2]; exact Or.inl h1
  · rw [cmpKey_eq h1]; exact h2

/-! ## Sorting lemmas -/

theorem mem_insertLe {le : α → α → Bool} {x z : α} :
    ∀ {l : List α}, z ∈ insertLe le x l ↔ z = x ∨ z ∈ l
  | [] => by simp [insertLe]
  | y :: t => by
    rw [insertLe]
    split
    · simp only [List.mem_cons, mem_insertLe (l := t)]
      tauto
    · simp [List.mem_cons]

theorem pairwise_insertLe {le : α → α → Bool}
    (total : ∀ a b, (le a b || le b a) = true)
    (trans : ∀ {a b c}, le a b = true → le b c = true → le a c = true) (x : α) :
    ∀ {l : List α}, l.Pairwise (fun a b => le a b = true) →
      (insertLe le x l).Pairwise (fun a b => le a b = true)
  | [], _ => by simp [insertLe]
  | y :: t, h => by
    rw [List.pairwise_cons] at h
    rw [insertLe]
    split
    · rename_i hyx
      rw [List.pairwise_cons]
      refine ⟨fun z hz => ?_, pairwise_insertLe total trans x h.2⟩
      rcases mem_insertLe.mp hz with rfl | hz
      · exact hyx
      · exact h.1 z hz
    · rename_i hyx
      have hxy : le x y = true := by
        have := total x y
        rcases Bool.or_eq_true_iff.mp this with h' | h'
        · exact h'
        · exact absurd h' hyx
      rw [List.pairwise_cons]
      refine ⟨fun z hz => ?_, List.pairwise_cons.mpr h⟩
      rcases List.mem_cons.mp hz with rfl | hz
      · exact hxy
      · exact trans hxy (h.1 z hz)

theorem mem_insortFold {le : α → α → Bool} {z : α} :
    ∀ (l acc : List α), z ∈ l.foldl (fun acc x => insertLe le x acc) acc ↔ z ∈ acc ∨ z ∈ l
  | [], acc => by simp
  | x :: t, acc => by
    rw [List.foldl_cons, mem_insortFold t]
    simp only [mem_insertLe, List.mem_cons]
    tauto

theorem mem_insortList {le : α → α → Bool} {z : α} {l : List α} :
    z ∈ insortList le l ↔ z ∈ l := by
  unfold insortList
  rw [mem_insortFold]
  simp

theorem pairwise_insortList {le : α → α → Bool}
    (total : ∀ a b, (le a b || le b a) = true)
    (trans : ∀ {a b c}, le a b = true → le b c = true → le a c = true) (l : List α) :
    (insortList le l).Pairwise (fun a b => le a b = true) := by
  unfold insortList
  have h : ∀ (l' acc : List α), acc.Pairwise (fun a b => le a b = true) →
      (l'.foldl (fun acc x => insertLe le x acc) acc).Pairwise (fun a b => le a b = true) := by
    intro l'
    induction l' with
    | nil => intro acc h; exact h
    | cons x t ih =>
      intro acc h
      exact ih _ (pairwise_insertLe total trans x h)
  exact h l [] (by simp)

/-- Generic preservation of an invariant along a left fold. -/
theorem foldl_preserve {σ β : Type} {P : σ → Prop} {step : σ → β → σ}
    (h : ∀ st b, P st → P (step st b)) :
    ∀ (l : List β) (st : σ), P st → P (l.foldl step st)
  | [], _, hst => hst
  | b :: t, st, hst => foldl_preserve h t (step st b) (h st b hst)

/-! ## Substring lemmas -/

theorem leadsCL_iff : ∀ {n l : List Char}, leadsCL n l = true ↔ n <+: l
  | [], _ => by simp [leadsCL]
  | _ :: _, [] => by
    simp only [leadsCL, Bool.false_eq_true, false_iff]
    intro h
    exact absurd (List.eq_nil_of_prefix_nil h) (by simp)
  | a :: as, b :: bs => by
    rw [leadsCL, Bool.and_eq_true, beq_iff_eq, leadsCL_iff, List.cons_prefix_cons]

theorem subCL_iff : ∀ {n l : List Char}, subCL n l = true ↔ n <:+: l
  | n, [] => by
    rw [subCL, List.isEmpty_iff, List.infix_nil]
  | n, c :: t => by
    rw [subCL, Bool.or_eq_true, leadsCL_iff, subCL_iff, List.infix_cons_iff]

theorem containsSub_iff {hay needle : String} :
    containsSub hay needle = true ↔ needle.data <:+: hay.data := subCL_iff

/-- Substring containment is transitive through an intermediate pattern. -/
theorem containsSub_of_infix {hay mid sub : String} (h1 : containsSub hay mid = true)
    (h2 : sub.data <:+: mid.data) : containsSub hay sub = true := by
  rw [containsSub_iff] at h1 ⊢
  exact h2.trans h1

/-! ## Set and extraction lemmas -/

theorem mem_insertSet {s : List String} {x z : String} :
    z ∈ insertSet s x ↔ z = x ∨ z ∈ s := by
  unfold insertSet
  split
  · rename_i hx
    constructor
    · exact fun h => Or.inr h
    · rintro (rfl | h)
      · exact hx
      · exact h
  · simp [or_comm]

/-- Classification predicate of the direct pluginfile set. -/
def isPluginfileHref (h : String) : Bool := containsSub h "moodle.tau.ac.il/pluginfile.php/"

/-- Classification predicate of the activity-page set: one of the three
activity-view URL patterns. -/
def isActivityHref (h : String) : Bool :=
  containsSub h "moodle.tau.ac.il/mod/resource/view.php"
    || containsSub h "moodle.tau.ac.il/mod/folder/view.php"
    || containsSub h "moodle.tau.ac.il/mod/assign/view.php"

/-- Reduction of one classification step to the two predicates. -/
theorem anchorStep_some {acc : List String × List String} {a : Anchor} {h : String}
    (ha : a.href = some h) :
    anchorStep acc a =
      if h = "" then acc
      else if isPluginfileHref h then (insertSet acc.1 h, acc.2)
      else if isActivityHref h then (acc.1, insertSet acc.2 h)
      else acc := by
  unfold anchorStep
  rw [ha]
  by_cases he : h = ""
  · simp [he]
  · simp only [he, if_false]
    by_cases hp : containsSub h "moodle.tau.ac.il/pluginfile.php/" = true
    · simp [isPluginfileHref, hp]
    · simp only [isPluginfileHref, hp, if_false]
      by_cases hr : containsSub h "moodle.tau.ac.il/mod/resource/view.php" = true
      · simp [isActivityHref, hr]
      · by_cases hf : containsSub h "moodle.tau.ac.il/mod/folder/view.php" = true
        · simp [isActivityHref, hr, hf]
        · by_cases hg : containsSub h "moodle.tau.ac.il/mod/assign/view.php" = true
          · simp [isActivityHref, hr, hf, hg]
          · simp [isActivityHref, hr, hf, hg]

theorem anchorStep_none {acc : List String × List String} {a : Anchor} (ha : a.href = none) :
    anchorStep acc a = acc := by
  unfold anchorStep
  rw [ha]

/-- Membership characterisation of one classification step: the pluginfile set. -/
theorem anchorStep_fst_mem {acc : List String × List String} {a : Anchor} {u : String} :
    u ∈ (anchorStep acc a).1 ↔
      u ∈ acc.1 ∨ (a.href = some u ∧ u ≠ "" ∧ isPluginfileHref u = true) := by
  cases ha : a.href with
  | none =>
    rw [anchorStep_none ha]
    simp
  | some h =>
    rw [anchorStep_some ha]
    by_cases he : h = ""
    · rw [if_pos he]
      constructor
      · exact fun hu => Or.inl hu
      · rintro (hu | ⟨hequ, hne, _⟩)
        · exact hu
        · injection hequ with h'
          subst h'
          exact absurd he hne
    · rw [if_neg he]
      by_cases hp : isPluginfileHref h = true
      · rw [if_pos hp]
        dsimp only
        rw [mem_insertSet]
        constructor
        · rintro (rfl | hu)
          · exact Or.inr ⟨rfl, he, hp⟩
          · exact Or.inl hu
        · rintro (hu | ⟨hequ, _, _⟩)
          · exact Or.inr hu
          · injection hequ with h'
            subst h'
            exact Or.inl rfl
      · rw [if_neg hp]
        have hfst : (if isActivityHref h = true then (acc.1, insertSet acc.2 h) else acc).1
            = acc.1 := by
          split <;> rfl
        rw [hfst]
        constructor
        · exact fun hu => Or.inl hu
        · rintro (hu | ⟨hequ, _, hup⟩)
          · exact hu
          · injection hequ with h'
            subst h'
            exact absurd hup hp

/-- Membership characterisation of one classification step: the activity set. -/
theorem anchorStep_snd_mem {acc : List String × List String} {a : Anchor} {u : String} :
    u ∈ (anchorStep acc a).2 ↔
      u ∈ acc.2 ∨ (a.href = some u ∧ u ≠ "" ∧ isPluginfileHref u = false ∧
        isActivityHref u = true) := by
  cases ha : a.href with
  | none =>
    rw [anchorStep_none ha]
    simp
  | some h =>
    rw [anchorStep_some ha]
    by_cases he : h = ""
    · rw [if_pos he]
      constructor
      · exact fun hu => Or.inl hu
      · rintro (hu | ⟨hequ, hne, _⟩)
        · exact hu
        · injection hequ with h'
          subst h'
          exact absurd he hne
    · rw [if_neg he]
      by_cases hp : isPluginfileHref h = true
      · rw [if_pos hp]
        dsimp only
        constructor
        · exact fun hu => Or.inl hu
        · rintro (hu | ⟨hequ, _, hpf, _⟩)
          · exact hu
          · injection hequ with h'
            subst h'
            rw [hp] at hpf
            exact absurd hpf (by simp)
      · rw [if_neg hp]
        have hpf : isPluginfileHref h = false := by
          cases hv : isPluginfileHref h
          · rfl
          · exact absurd hv hp
        by_cases hact : isActivityHref h = true
        · rw [if_pos hact]
          dsimp only
          rw [mem_insertSet]
          constructor
          · rintro (rfl | hu)
            · exact Or.inr ⟨rfl, he, hpf, hact⟩
            · exact Or.inl hu
          · rintro (hu | ⟨hequ, _, _, _⟩)
            · exact Or.inr hu
            · injection hequ with h'
              subst h'
              exact Or.inl rfl
        · rw [if_neg hact]
          constructor
          · exact fun hu => Or.inl hu
          · rintro (hu | ⟨hequ, _, _, hua⟩)
            · exact hu
            · injection hequ with h'
              subst h'
              exact absurd hua hact

/-- Membership in the pluginfile component of the classification fold. -/
theorem anchorFold_fst_mem {u : String} :
    ∀ (l : List Anchor) (acc : List String × List String),
      u ∈ (l.foldl anchorStep acc).1 ↔
        u ∈ acc.1 ∨ ∃ a ∈ l, a.href = some u ∧ u ≠ "" ∧ isPluginfileHref u = true
  | [], acc => by simp
  | a :: t, acc => by
    rw [List.foldl_cons, anchorFold_fst_mem t]
    simp only [anchorStep_fst_mem, List.mem_cons]
    constructor
    · rintro ((hu | hnew) | ⟨b, hb, hprop⟩)
      · exact Or.inl hu
      · exact Or.inr ⟨a, Or.inl rfl, hnew⟩
      · exact Or.inr ⟨b, Or.inr hb, hprop⟩
    · rintro (hu | ⟨b, rfl | hb, hprop⟩)
      · exact Or.inl (Or.inl hu)
      · exact Or.inl (Or.inr hprop)
      · exact Or.inr ⟨b, hb, hprop⟩

/-- Membership in the activity component of the classification fold. -/
theorem anchorFold_snd_mem {u : String} :
    ∀ (l : List Anchor) (acc : List String × List String),
      u ∈ (l.foldl anchorStep acc).2 ↔
        u ∈ acc.2 ∨ ∃ a ∈ l, a.href = some u ∧ u ≠ "" ∧ isPluginfileHref u = false ∧
          isActivityHref u = true
  | [], acc => by simp
  | a :: t, acc => by
    rw [List.foldl_cons, anchorFold_snd_mem t]
    simp only [anchorStep_snd_mem, List.mem_cons]
    constructor
    · rintro ((hu | hnew) | ⟨b, hb, hprop⟩)
      · exact Or.inl hu
      · exact Or.inr ⟨a, Or.inl rfl, hnew⟩
      · exact Or.inr ⟨b, Or.inr hb, hprop⟩
    · rintro (hu | ⟨b, rfl | hb, hprop⟩)
      · exact Or.inl (Or.inl hu)
      · exact Or.inl (Or.inr hprop)
      · exact Or.inr ⟨b, hb, hprop⟩

/-- Membership characterisation of the pluginfile set of the link extractor. -/
theorem extract_fst_mem {net : Net} {html u : String} :
    u ∈ (extract_activity_links_from_course_html net html).1 ↔
      ∃ a ∈ net.parseHtml html, a.href = some u ∧ u ≠ "" ∧ isPluginfileHref u = true := by
  unfold extract_activity_links_from_course_html
  rw [anchorFold_fst_mem]
  simp

/-- Membership characterisation of the activity set of the link extractor. -/
theorem extract_snd_mem {net : Net} {html u : String} :
    u ∈ (extract_activity_links_from_course_html net html).2 ↔
      ∃ a ∈ net.parseHtml html, a.href = some u ∧ u ≠ "" ∧ isPluginfileHref u = false ∧
        isActivityHref u = true := by
  unfold extract_activity_links_from_course_html
  rw [anchorFold_snd_mem]
  simp

/-! ## Scan invariants -/

/-- Exhaustive description of one `processFile` step: either the dedup key was
already seen and nothing happens, or the key is recorded in `seen` and in the
call log, and a record is appended exactly when the lookup succeeded with a
timestamp beyond the watermark. -/
theorem processFile_cases (net : Net) (ref : AwareDatetime) (raw disp curl : String)
    (origin : Origin) (st : ScanState) (pf : String) :
    ((curl, pf) ∈ st.seen ∧ processFile net ref raw disp curl origin st pf = st) ∨
    ((curl, pf) ∉ st.seen ∧
      (processFile net ref raw disp curl origin st pf).seen = st.seen ++ [(curl, pf)] ∧
      (processFile net ref raw disp curl origin st pf).calls = st.calls ++ [(curl, pf)] ∧
      ((processFile net ref raw disp curl origin st pf).found = st.found ∨
        ∃ lm, get_last_modified_for_file net pf = some lm ∧ ref.instant < lm.instant ∧
          (processFile net ref raw disp curl origin st pf).found =
            st.found ++ [mkRecord net raw disp curl origin pf lm])) := by
  unfold processFile
  dsimp only
  split
  · rename_i hseen
    exact Or.inl ⟨hseen, rfl⟩
  · rename_i hseen
    refine Or.inr ⟨hseen, ?_⟩
    cases hlm : get_last_modified_for_file net pf with
    | none => exact ⟨rfl, rfl, Or.inl rfl⟩
    | some lm =>
      dsimp only
      by_cases hlt : ref.instant < lm.instant
      · rw [if_pos hlt]
        exact ⟨rfl, rfl, Or.inr ⟨lm, rfl, hlt, rfl⟩⟩
      · rw [if_neg hlt]
        exact ⟨rfl, rfl, Or.inl rfl⟩

/-- Timestamp carried by an emitted record. -/
theorem mkRecord_time (net : Net) (raw disp curl : String) (origin : Origin) (pf : String)
    (lm : AwareDatetime) : (mkRecord net raw disp curl origin pf lm).file.last_modified_il = lm :=
  rfl

/-- Dedup key carried by an emitted record. -/
theorem mkRecord_key (net : Net) (raw disp curl : String) (origin : Origin) (pf : String)
    (lm : AwareDatetime) : (mkRecord net raw disp curl origin pf lm).key = (curl, pf) :=
  rfl

/-- Watermark invariant: every record found so far is strictly newer than the
reference timestamp. -/
def FoundAfter (ref : AwareDatetime) (st : ScanState) : Prop :=
  ∀ tf ∈ st.found, ref.instant < tf.file.last_modified_il.instant

theorem processFile_foundAfter {net : Net} {ref : AwareDatetime} {raw disp curl : String}
    {origin : Origin} {st : ScanState} {pf : String} (h : FoundAfter ref st) :
    FoundAfter ref (processFile net ref raw disp curl origin st pf) := by
  rcases processFile_cases net ref raw disp curl origin st pf with ⟨_, heq⟩ | ⟨_, _, _, hf⟩
  · rw [heq]
    exact h
  · rcases hf with hf | ⟨lm, _, hlt, hf⟩
    · intro tf htf
      rw [hf] at htf
      exact h tf htf
    · intro tf htf
      rw [hf] at htf
      rcases List.mem_append.mp htf with htf | htf
      · exact h tf htf
      · rw [List.mem_singleton.mp htf, mkRecord_time]
        exact hlt

/-- Variant of `foldl_preserve` giving element membership to the step. -/
theorem foldl_preserve_mem {σ β : Type} {P : σ → Prop} {step : σ → β → σ} :
    ∀ (l : List β), (∀ st b, b ∈ l → P st → P (step st b)) → ∀ st, P st → P (l.foldl step st)
  | [], _, _, hst => hst
  | b :: t, h, st, hst =>
    foldl_preserve_mem t (fun st' b' hb' => h st' b' (List.mem_cons_of_mem _ hb')) _
      (h st b (List.mem_cons_self b t) hst)

/-- Markedness of the provenance: the activity URL of a non-direct origin
matches one of the three activity-view patterns (so that
`_normalize_link_for_print` keeps it). -/
def originMarked (origin : Origin) : Prop :=
  ∀ a lbl, origin = some (a, lbl) →
    (containsSub a "mod/resource/view.php" || containsSub a "mod/folder/view.php"
      || containsSub a "mod/assign/view.php") = true

/-- Members of the activity set contain one of the three short activity
markers tested by `_normalize_link_for_print`. -/
theorem activity_marker {act : String} (h : isActivityHref act = true) :
    (containsSub act "mod/resource/view.php" || containsSub act "mod/folder/view.php"
      || containsSub act "mod/assign/view.php") = true := by
  unfold isActivityHref at h
  rcases Bool.or_eq_true_iff.mp h with h' | h'
  · rcases Bool.or_eq_true_iff.mp h' with h'' | h''
    · have hm := containsSub_of_infix h''
        (show ("mod/resource/view.php" : String).data <:+:
          ("moodle.tau.ac.il/mod/resource/view.php" : String).data by decide)
      simp [hm]
    · have hm := containsSub_of_infix h''
        (show ("mod/folder/view.php" : String).data <:+:
          ("moodle.tau.ac.il/mod/folder/view.php" : String).data by decide)
      simp [hm]
  · have hm := containsSub_of_infix h'
      (show ("mod/assign/view.php" : String).data <:+:
        ("moodle.tau.ac.il/mod/assign/view.php" : String).data by decide)
    simp [hm]

/-- Generic preservation of a state invariant along the whole instrumented
scan, given preservation by each marked-origin `processFile` step. -/
theorem scan_all_traced_preserve (net : Net) (ref : AwareDatetime) {P : ScanState → Prop}
    (hstep : ∀ raw disp curl origin st pf, originMarked origin → P st →
      P (processFile net ref raw disp curl origin st pf))
    (courses : List (String × String)) (hinit : P ⟨[], [], []⟩) :
    P (scan_all_traced net courses ref) := by
  unfold scan_all_traced
  refine foldl_preserve (fun st course h => ?_) courses _ hinit
  unfold processCourse
  cases hg : http_get_html net course.2 with
  | none => exact h
  | some html =>
    dsimp only
    by_cases he : html = ""
    · rw [if_pos he]
      exact h
    · rw [if_neg he]
      refine foldl_preserve_mem _ (fun st' act hmem h' => ?_) _
        (foldl_preserve
          (fun st' b h' => hstep _ _ _ none _ _ (fun a l hl => absurd hl (by simp)) h') _ _ h)
      have hact : isActivityHref act = true := by
        unfold sortedStrings at hmem
        have hmem' := mem_insortList.mp hmem
        obtain ⟨_, _, _, _, _, hactv⟩ := extract_snd_mem.mp hmem'
        exact hactv
      unfold processActivity
      by_cases hres : containsSub act "mod/resource/view.php" = true
      · rw [if_pos hres]
        refine foldl_preserve (fun st'' pf h'' => ?_) _ _ h'
        refine hstep _ _ _ (some (act, none)) _ _ ?_ h''
        intro a' l' heq
        injection heq with heq'
        cases heq'
        simp [hres]
      · rw [if_neg hres]
        cases hg2 : http_get_html net act with
        | none => exact h'
        | some act_html =>
          dsimp only
          by_cases he2 : act_html = ""
          · rw [if_pos he2]
            exact h'
          · rw [if_neg he2]
            refine foldl_preserve (fun st'' pt h'' => ?_) _ _ h'
            dsimp only
            by_cases hb : containsSub pt.1 "pluginfile.php" = true
            · rw [if_pos hb]
              refine hstep _ _ _ (some (act, some pt.2)) _ _ ?_ h''
              intro a' l' heq
              injection heq with heq'
              cases heq'
              exact activity_marker hact
            · rw [if_neg hb]
              exact h''

/-- Watermark invariant over the whole instrumented scan. -/
theorem scan_all_traced_foundAfter (net : Net) (courses : List (String × String))
    (ref : AwareDatetime) : FoundAfter ref (scan_all_traced net courses ref) :=
  scan_all_traced_preserve net ref
    (fun _ _ _ _ _ _ _ h => processFile_foundAfter h) courses
    (fun tf htf => absurd htf (by simp))

theorem nodup_snoc {α : Type} {l : List α} {a : α} (h : l.Nodup) (ha : a ∉ l) :
    (l ++ [a]).Nodup := by
  rw [List.nodup_append]
  refine ⟨h, List.nodup_singleton a, fun x hx hx' => ?_⟩
  rw [List.mem_singleton.mp hx'] at hx
  exact ha hx

/-- Dedup invariant: the metadata-call log has no repeated key, no two emitted
records share a dedup key, and all logged keys are recorded in `seen`. -/
def DedupInv (st : ScanState) : Prop :=
  st.calls.Nodup ∧ (st.found.map TracedFile.key).Nodup ∧
    (∀ k ∈ st.calls, k ∈ st.seen) ∧ (∀ k ∈ st.found.map TracedFile.key, k ∈ st.seen)

theorem processFile_dedupInv {net : Net} {ref : AwareDatetime} {raw disp curl : String}
    {origin : Origin} {st : ScanState} {pf : String} (h : DedupInv st) :
    DedupInv (processFile net ref raw disp curl origin st pf) := by
  obtain ⟨hc, hf, hcs, hfs⟩ := h
  rcases processFile_cases net ref raw disp curl origin st pf with ⟨_, heq⟩ |
    ⟨hnot, hseen, hcalls, hfound⟩
  · rw [heq]
    exact ⟨hc, hf, hcs, hfs⟩
  · have hknc : (curl, pf) ∉ st.calls := fun hk => hnot (hcs _ hk)
    have hknf : (curl, pf) ∉ st.found.map TracedFile.key := fun hk => hnot (hfs _ hk)
    refine ⟨?_, ?_, ?_, ?_⟩
    · rw [hcalls]
      exact nodup_snoc hc hknc
    · rcases hfound with hfound | ⟨lm, _, _, hfound⟩
      · rw [hfound]
        exact hf
      · rw [hfound, List.map_append]
        have hm1 : List.map TracedFile.key [mkRecord net raw disp curl origin pf lm]
            = [(curl, pf)] := by
          simp [mkRecord_key]
        rw [hm1]
        exact nodup_snoc hf hknf
    · intro k hk
      rw [hcalls] at hk
      rw [hseen]
      rcases List.mem_append.mp hk with hk | hk
      · exact List.mem_append_left _ (hcs _ hk)
      · exact List.mem_append_right _ hk
    · intro k hk
      rw [hseen]
      rcases hfound with hfound | ⟨lm, _, _, hfound⟩
      · rw [hfound] at hk
        exact List.mem_append_left _ (hfs _ hk)
      · rw [hfound, List.map_append] at hk
        rcases List.mem_append.mp hk with hk | hk
        · exact List.mem_append_left _ (hfs _ hk)
        · have hk' : k = (curl, pf) := by simpa [mkRecord_key] using hk
          rw [hk']
          exact List.mem_append_right _ (by simp)

/-- Dedup invariant over the whole instrumented scan. -/
theorem scan_all_traced_dedupInv (net : Net) (courses : List (String × String))
    (ref : AwareDatetime) : DedupInv (scan_all_traced net courses ref) :=
  scan_all_traced_preserve net ref
    (fun _ _ _ _ _ _ _ h => processFile_dedupInv h) courses
    ⟨List.nodup_nil, List.nodup_nil, fun k hk => absurd hk (by simp),
      fun k hk => absurd hk (by simp)⟩

/-- Per-record link/name discipline: a direct record links to the resolved
URL; an activity-derived record links back to the original activity URL; the
display name is the anchor label when one is available and non-blank, and a
URL-derived name otherwise. -/
def originProp (net : Net) (tf : TracedFile) : Prop :=
  match tf.origin with
  | none => tf.file.link = tf.resolvedUrl ∧
      tf.file.file_name = safe_filename_from_url net tf.resolvedUrl
  | some (act, none) => tf.file.link = act ∧
      tf.file.file_name = safe_filename_from_url net tf.resolvedUrl
  | some (act, some txt) => tf.file.link = act ∧
      tf.file.file_name =
        if strTrim txt = "" then safe_filename_from_url net tf.resolvedUrl else strTrim txt

theorem mkRecord_originProp (net : Net) (raw disp curl : String) (origin : Origin)
    (pf : String) (lm : AwareDatetime) (hmark : originMarked origin) :
    originProp net (mkRecord net raw disp curl origin pf lm) := by
  match origin with
  | none => exact ⟨rfl, rfl⟩
  | some (act, none) =>
    have hm := hmark act none rfl
    refine ⟨?_, rfl⟩
    show normalize_link_for_print act pf = act
    unfold normalize_link_for_print
    rw [if_pos hm]
  | some (act, some txt) =>
    have hm := hmark act (some txt) rfl
    refine ⟨?_, rfl⟩
    show normalize_link_for_print act pf = act
    unfold normalize_link_for_print
    rw [if_pos hm]

/-- Invariant: every emitted record obeys the link/name discipline. -/
def OriginOk (net : Net) (st : ScanState) : Prop := ∀ tf ∈ st.found, originProp net tf

theorem processFile_originOk {net : Net} {ref : AwareDatetime} {raw disp curl : String}
    {origin : Origin} {st : ScanState} {pf : String} (hmark : originMarked origin)
    (h : OriginOk net st) : OriginOk net (processFile net ref raw disp curl origin st pf) := by
  rcases processFile_cases net ref raw disp curl origin st pf with ⟨_, heq⟩ | ⟨_, _, _, hfound⟩
  · rw [heq]
    exact h
  · rcases hfound with hf | ⟨lm, _, _, hf⟩
    · intro tf htf
      rw [hf] at htf
      exact h tf htf
    · intro tf htf
      rw [hf] at htf
      rcases List.mem_append.mp htf with htf | htf
      · exact h tf htf
      · rw [List.mem_singleton.mp htf]
        exact mkRecord_originProp net raw disp curl origin pf lm hmark

/-- Link/name discipline over the whole instrumented scan. -/
theorem scan_all_traced_originOk (net : Net) (courses : List (String × String))
    (ref : AwareDatetime) : OriginOk net (scan_all_traced net courses ref) :=
  scan_all_traced_preserve net ref
    (fun _ _ _ _ _ _ hm h => processFile_originOk hm h) courses
    (fun tf htf => absurd htf (by simp))

/-! ## Auxiliary facts for the claims -/

/-- Timezone of any timestamp produced by the header parser. -/
theorem parse_http_tz {net : Net} {lmv : Option String} {t : AwareDatetime}
    (h : parse_http_last_modified net lmv = some t) : t.tz = Tz.il := by
  unfold parse_http_last_modified at h
  cases lmv with
  | none => exact absurd h (by simp)
  | some lm =>
    dsimp only at h
    by_cases he : lm = ""
    · rw [if_pos he] at h
      exact absurd h (by simp)
    · rw [if_neg he] at h
      cases hd : net.parseDate lm with
      | error e =>
        rw [hd] at h
        exact absurd h (by simp)
      | ok dt =>
        rw [hd] at h
        dsimp only at h
        injection h with h'
        rw [← h']
        rfl

theorem fastCond_false {a b : Bool} (h : (a || !b) = true) : (!a && b) = false := by
  cases a <;> cases b <;> simp_all

/-- Condition that the redirect probe did not land on a pluginfile URL. -/
def probeMisses (net : Net) (view_url : String) : Bool :=
  match http_head_follow net (resource_probe_url view_url) with
  | none => true
  | some r => r.url == "" || !containsSub r.url "pluginfile.php"

/-! ## Witness inputs

Concrete environments used to exercise the theorems on closed runs. -/

def wCourseUrl : String := "https://moodle.tau.ac.il/course/view.php?id=1"

def wPfUrl : String := "https://moodle.tau.ac.il/pluginfile.php/1/f.pdf"

def wNet : Net :=
  ⟨fun u => .ok ⟨200, u, some "LM", ""⟩,
   fun _ => .error (),
   fun u => if u = wCourseUrl then .ok ⟨200, u, none, "COURSE"⟩ else .error (),
   fun h => if h = "COURSE" then [⟨some wPfUrl, "Lecture 1"⟩] else [],
   fun s => if s = "LM" then .ok ⟨100, none⟩ else .error (),
   fun s => s⟩

def wRef : AwareDatetime := ⟨0, Tz.utc⟩

def wCourses : List (String × String) := [("Course A", wCourseUrl)]

def wRec : FoundFile := ⟨"Course A", "Course A", "f.pdf", ⟨100, Tz.il⟩, wPfUrl⟩

def wTr : TracedFile := ⟨wRec, wCourseUrl, wPfUrl, none⟩

def exA1 : FoundFile := ⟨"A", "A", "f", ⟨1, Tz.il⟩, "l1"⟩

def exA3 : FoundFile := ⟨"A", "A", "f", ⟨3, Tz.il⟩, "l3"⟩

def exB2 : FoundFile := ⟨"B", "B", "f", ⟨2, Tz.il⟩, "l2"⟩

def w4ViewUrl : String := "https://moodle.tau.ac.il/mod/resource/view.php?id=5"

def w4Final : String := "https://moodle.tau.ac.il/pluginfile.php/9/x.pdf"

def w4Net : Net :=
  ⟨fun _ => .ok ⟨200, w4Final, some "LM", ""⟩, fun _ => .error (), fun _ => .error (),
   fun _ => [], fun _ => .error (), fun s => s⟩

def w5ViewUrl : String := "https://moodle.tau.ac.il/mod/folder/view.php?id=7"

def w5A : String := "https://moodle.tau.ac.il/pluginfile.php/2/a.pdf"

def w5Net : Net :=
  ⟨fun _ => .error (), fun _ => .error (),
   fun u => if u = w5ViewUrl then .ok ⟨200, u, none, "PAGE"⟩ else .error (),
   fun h =>
     if h = "PAGE" then [⟨some w5A, "A1"⟩, ⟨some w5A, "A2"⟩, ⟨some "https://other/x", "B"⟩]
     else [],
   fun _ => .error (), fun s => s⟩

def w6Net : Net :=
  ⟨fun u => .ok ⟨200, u, some "DATE", ""⟩, fun _ => .error (), fun _ => .error (),
   fun _ => [], fun s => if s = "DATE" then .ok ⟨50, none⟩ else .error (), fun s => s⟩

def w7Pf : String := "https://moodle.tau.ac.il/pluginfile.php/3/z.pdf"

def w7Net : Net :=
  ⟨fun _ => .error (), fun _ => .error (), fun _ => .error (),
   fun _ => [⟨some w7Pf, "Z"⟩], fun _ => .error (), fun s => s⟩

def w10U : String :=
  "https://moodle.tau.ac.il/pluginfile.php/4/moodle.tau.ac.il/mod/resource/view.php"

def w10Net : Net :=
  ⟨fun _ => .error (), fun _ => .error (), fun _ => .error (),
   fun _ => [⟨some w10U, "X"⟩], fun _ => .error (), fun s => s⟩

/-! ## Claims -/

/-- C1: every `ChangeRecord` returned by the scan has its modification
timestamp strictly greater than the reference watermark; a file whose
modification time is absent or at/below the watermark never produces a
record. -/
theorem scan_all_beyond_watermark (net : Net) (courses : List (String × String))
    (ref : AwareDatetime) :
    ∀ f ∈ scan_all net courses ref, ref.instant < f.last_modified_il.instant := by
  intro f hf
  unfold scan_all sortFound at hf
  obtain ⟨tf, htf, rfl⟩ := List.mem_map.mp (mem_insortList.mp hf)
  exact scan_all_traced_foundAfter net courses ref tf htf

theorem scan_all_beyond_watermark_witness :
    wRec ∈ scan_all wNet wCourses wRef ∧ wRef.instant < wRec.last_modified_il.instant :=
  ⟨by decide, scan_all_beyond_watermark wNet wCourses wRef wRec (by decide)⟩

/-- C2: the scan's output is sorted by (course display name ascending,
modification timestamp ascending, lower-cased file name ascending), and on the
records [(B,t2),(A,t1),(A,t3)] the sort yields [(A,t1),(A,t3),(B,t2)]. -/
theorem scan_all_sorted :
    (∀ (net : Net) (courses : List (String × String)) (ref : AwareDatetime),
      (scan_all net courses ref).Pairwise (fun a b => keyLe a b = true)) ∧
    sortFound [exB2, exA1, exA3] = [exA1, exA3, exB2] := by
  constructor
  · intro net courses ref
    unfold scan_all sortFound
    exact pairwise_insortList keyLe_total keyLe_trans _
  · decide

/-- C3: within one scan the metadata lookup is invoked at most once per
(courseURL, resolvedFileURL) dedup key, and no two emitted records share a
dedup key — in particular, within a course no two records share a resolved
file URL. -/
theorem scan_metadata_dedup (net : Net) (courses : List (String × String))
    (ref : AwareDatetime) :
    (scan_all_traced net courses ref).calls.Nodup ∧
      ((scan_all_traced net courses ref).found.map TracedFile.key).Nodup := by
  obtain ⟨hc, hf, _, _⟩ := scan_all_traced_dedupInv net courses ref
  exact ⟨hc, hf⟩

/-- C4: the redirect probe appends `redirect=1` exactly when the text
`redirect=` does not already occur in the URL, joined with `?` or `&`
according to the presence of a query string; when the probe's final URL is a
pluginfile URL the resolver returns exactly that one URL and fetches no HTML. -/
theorem resolve_resource_view_fast_path (net : Net) (view_url : String) :
    (containsSub view_url "redirect=" = false →
      resource_probe_url view_url =
        view_url ++ (if containsSub view_url "?" then "&" else "?") ++ "redirect=1") ∧
    (containsSub view_url "redirect=" = true → resource_probe_url view_url = view_url) ∧
    (∀ r, http_head_follow net (resource_probe_url view_url) = some r →
      (!(r.url == "") && containsSub r.url "pluginfile.php") = true →
      resolve_resource_view_traced net view_url = ([r.url], 0)) := by
  refine ⟨?_, ?_, ?_⟩
  · intro h
    unfold resource_probe_url
    rw [h]
    simp
  · intro h
    unfold resource_probe_url
    rw [h]
    simp
  · intro r hr hcond
    unfold resolve_resource_view_traced
    rw [hr]
    dsimp only
    rw [if_pos hcond]

theorem resolve_resource_view_fast_path_witness :
    resolve_resource_view_traced w4Net w4ViewUrl = ([w4Final], 0) :=
  (resolve_resource_view_fast_path w4Net w4ViewUrl).2.2 ⟨200, w4Final, some "LM", ""⟩
    (by decide) (by decide)

/-- C5: when the redirect probe does not land on a pluginfile URL the resolver
returns the scraped pluginfile hrefs of the activity page in discovery order,
de-duplicated keeping first occurrences; a failed or empty page fetch yields
the empty list rather than an exception, and an activity that resolves to
nothing is skipped by the caller without effect on the scan state. -/
theorem resolve_resource_view_fallback (net : Net) (ref : AwareDatetime)
    (view_url raw disp curl : String) (st : ScanState) :
    (probeMisses net view_url = true →
      resolve_resource_view_to_file net view_url =
        match http_get_html net view_url with
        | none => []
        | some html =>
          if html = "" then []
          else dedupFirst ((extract_pluginfile_links_from_html net html).map Prod.fst)) ∧
    (probeMisses net view_url = true → http_get_html net view_url = none →
      resolve_resource_view_to_file net view_url = []) ∧
    (resolve_resource_view_to_file net view_url = [] →
      containsSub view_url "mod/resource/view.php" = true →
      processActivity net ref raw disp curl st view_url = st) := by
  have hmain : probeMisses net view_url = true →
      resolve_resource_view_to_file net view_url =
        match http_get_html net view_url with
        | none => []
        | some html =>
          if html = "" then []
          else dedupFirst ((extract_pluginfile_links_from_html net html).map Prod.fst) := by
    intro hmiss
    unfold probeMisses at hmiss
    unfold resolve_resource_view_to_file resolve_resource_view_traced
    cases hh : http_head_follow net (resource_probe_url view_url) with
    | none =>
      unfold resolve_fallback
      cases hg : http_get_html net view_url with
      | none => rfl
      | some html =>
        dsimp only
        by_cases he : html = ""
        · rw [if_pos he, if_pos he]
        · rw [if_neg he, if_neg he]
    | some r =>
      rw [hh] at hmiss
      dsimp only at hmiss
      dsimp only
      rw [fastCond_false hmiss, if_neg Bool.false_ne_true]
      unfold resolve_fallback
      cases hg : http_get_html net view_url with
      | none => rfl
      | some html =>
        dsimp only
        by_cases he : html = ""
        · rw [if_pos he, if_pos he]
        · rw [if_neg he, if_neg he]
  refine ⟨hmain, ?_, ?_⟩
  · intro hmiss hg
    rw [hmain hmiss, hg]
  · intro hempty hres
    unfold processActivity
    rw [if_pos hres, hempty]
    rfl

theorem resolve_resource_view_fallback_witness :
    resolve_resource_view_to_file w5Net w5ViewUrl = [w5A] :=
  ((resolve_resource_view_fallback w5Net wRef w5ViewUrl "" "" "" ⟨[], [], []⟩).1
    (by decide)).trans (by decide)

/-- C6: the metadata lookup never raises: a request exception, an absent
`Last-Modified` header, or an unparseable date all yield `none`; a date that
parses without an explicit offset is read as UTC; every returned timestamp is
expressed in the Israel timezone. -/
theorem get_last_modified_total (net : Net) (url : String) :
    (net.head url = .error () → get_last_modified_for_file net url = none) ∧
    (∀ r, http_head_follow net url = some r → r.lastModified = none →
      get_last_modified_for_file net url = none) ∧
    (∀ r s, http_head_follow net url = some r → r.lastModified = some s →
      net.parseDate s = .error () → get_last_modified_for_file net url = none) ∧
    (∀ r s d, http_head_follow net url = some r → r.status < 400 →
      r.lastModified = some s → s ≠ "" → net.parseDate s = .ok d →
      d.tzOffsetSeconds = none →
      get_last_modified_for_file net url = some ⟨d.wall, Tz.il⟩) ∧
    (∀ t, get_last_modified_for_file net url = some t → t.tz = Tz.il) := by
  refine ⟨?_, ?_, ?_, ?_, ?_⟩
  · intro h
    unfold get_last_modified_for_file http_head_follow
    rw [h]
  · intro r hr hlm
    unfold get_last_modified_for_file
    rw [hr]
    dsimp only
    by_cases hs : 400 ≤ r.status
    · rw [if_pos hs]
    · rw [if_neg hs]
      unfold parse_http_last_modified
      rw [hlm]
  · intro r s hr hlm hd
    unfold get_last_modified_for_file
    rw [hr]
    dsimp only
    by_cases hs : 400 ≤ r.status
    · rw [if_pos hs]
    · rw [if_neg hs]
      unfold parse_http_last_modified
      rw [hlm]
      dsimp only
      by_cases he : s = ""
      · rw [if_pos he]
      · rw [if_neg he, hd]
  · intro r s d hr hst hlm hs hd hoff
    unfold get_last_modified_for_file
    rw [hr]
    dsimp only
    rw [if_neg (by omega)]
    unfold parse_http_last_modified
    rw [hlm]
    dsimp only
    rw [if_neg hs, hd]
    dsimp only
    rw [if_pos hoff]
    unfold PyDatetime.replaceUtc PyDatetime.astimezoneIl
    simp
  · intro t ht
    unfold get_last_modified_for_file at ht
    cases hh : http_head_follow net url with
    | none =>
      rw [hh] at ht
      exact absurd ht (by simp)
    | some r =>
      rw [hh] at ht
      dsimp only at ht
      by_cases hs : 400 ≤ r.status
      · rw [if_pos hs] at ht
        exact absurd ht (by simp)
      · rw [if_neg hs] at ht
        exact parse_http_tz ht

theorem get_last_modified_total_witness :
    get_last_modified_for_file w6Net "u" = some ⟨50, Tz.il⟩ :=
  (get_last_modified_total w6Net "u").2.2.2.1 ⟨200, "u", some "DATE", ""⟩ "DATE" ⟨50, none⟩
    (by decide) (by decide) (by decide) (by decide) rfl (by decide)

/-- C7: the link extractor classifies each anchor href into exactly one of the
pluginfile set (hrefs matching the pluginfile pattern) and the activity set
(hrefs matching one of the three activity-view patterns); hrefs matching
neither pattern are discarded, and no href lands in both sets. -/
theorem extract_links_classification (net : Net) (html u : String) :
    (u ∈ (extract_activity_links_from_course_html net html).1 ↔
      ∃ a ∈ net.parseHtml html, a.href = some u ∧ u ≠ "" ∧ isPluginfileHref u = true) ∧
    (u ∈ (extract_activity_links_from_course_html net html).2 ↔
      ∃ a ∈ net.parseHtml html, a.href = some u ∧ u ≠ "" ∧ isPluginfileHref u = false ∧
        isActivityHref u = true) ∧
    ¬(u ∈ (extract_activity_links_from_course_html net html).1 ∧
      u ∈ (extract_activity_links_from_course_html net html).2) := by
  refine ⟨extract_fst_mem, extract_snd_mem, ?_⟩
  rintro ⟨h1, h2⟩
  obtain ⟨_, _, _, _, hp⟩ := extract_fst_mem.mp h1
  obtain ⟨_, _, _, _, hnp, _⟩ := extract_snd_mem.mp h2
  rw [hp] at hnp
  exact absurd hnp (by simp)

theorem extract_links_classification_witness :
    w7Pf ∈ (extract_activity_links_from_course_html w7Net "H").1 :=
  (extract_links_classification w7Net "H" w7Pf).1.mpr (by decide)

/-- C8: every record of the scan keeps the original activity-page URL as its
link when it was discovered through an activity page, and the resolved file
URL itself for a direct link; its file name is the anchor's visible text when
that is available and non-blank, and a name derived from the resolved URL
otherwise.  The scan's output is exactly these records, sorted. -/
theorem scan_record_link_name (net : Net) (courses : List (String × String))
    (ref : AwareDatetime) :
    (∀ tf ∈ (scan_all_traced net courses ref).found, originProp net tf) ∧
      scan_all net courses ref =
        sortFound ((scan_all_traced net courses ref).found.map TracedFile.file) :=
  ⟨scan_all_traced_originOk net courses ref, rfl⟩

theorem scan_record_link_name_witness :
    wTr ∈ (scan_all_traced wNet wCourses wRef).found ∧ originProp wNet wTr :=
  ⟨by decide, (scan_record_link_name wNet wCourses wRef).1 wTr (by decide)⟩

/-- C9 counterexample: on a label with surrounding whitespace and no course
code, the derived display name is the trimmed label, not the raw label
unchanged. -/
theorem course_display_name_untrimmed_counterexample :
    course_display_name " Seminar XYZ" = "Seminar XYZ" ∧
      course_display_name " Seminar XYZ" ≠ " Seminar XYZ" := by
  decide

/-- Display-name derivation as amended: on the whitespace-trimmed label, when
the part before the first " - " is six or more digits the display name is the
part after it, trimmed; otherwise it is the trimmed label (unchanged only for
labels without surrounding whitespace). -/
def displayNameSpec (label : String) : String :=
  let t := strTrim label
  match splitFirstCL (" - ".data) t.data with
  | some (l, r) => if allDigits6 (strTrim (String.mk l)) then strTrim (String.mk r) else t
  | none => t

/-- C9 (amended): the display name follows the amended rule, with the claim's
two examples. -/
theorem course_display_name_amended :
    (∀ raw : String, course_display_name raw = displayNameSpec raw) ∧
      course_display_name "05092843 - אנליזה הרמונית" = "אנליזה הרמונית" ∧
      course_display_name "Seminar XYZ" = "Seminar XYZ" := by
  refine ⟨fun raw => rfl, by decide, by decide⟩

/-- C10: an href containing both the pluginfile marker and one of the three
activity-view patterns is classified only as a direct file link: the
pluginfile check takes precedence and the href never enters the activity set. -/
theorem pluginfile_precedence (net : Net) (html u : String) (a : Anchor)
    (ha : a ∈ net.parseHtml html) (hhref : a.href = some u) (hne : u ≠ "")
    (hp : isPluginfileHref u = true) (hact : isActivityHref u = true) :
    u ∈ (extract_activity_links_from_course_html net html).1 ∧
      u ∉ (extract_activity_links_from_course_html net html).2 := by
  constructor
  · exact extract_fst_mem.mpr ⟨a, ha, hhref, hne, hp⟩
  · intro hmem
    obtain ⟨_, _, _, _, hnp, _⟩ := extract_snd_mem.mp hmem
    rw [hp] at hnp
    exact absurd hnp (by simp)

theorem pluginfile_precedence_witness :
    w10U ∈ (extract_activity_links_from_course_html w10Net "H").1 ∧
      w10U ∉ (extract_activity_links_from_course_html w10Net "H").2 :=
  pluginfile_precedence w10Net "H" w10U ⟨some w10U, "X"⟩ (by decide) (by decide) (by decide)
    (by decide) (by decide)

end MoodleScan
